import Mathlib

/-!
Verification development for the niri-glue keyboard-layout monitor
(`src/layout.rs`).  The stateful part of the program is `LayoutRunner`:
it holds the alias table (a map whose keys were lower-cased at
construction) and the current `KeyboardLayouts` snapshot, and processes
the events `KeyboardLayoutsChanged` and `KeyboardLayoutSwitched`,
emitting at most one output line per event.

The alias resolution (`LayoutRunner::alias_layout`) parses a raw layout
name with the anchored regex

    (?<full>NONWS+) WS* ( LPAREN (?<alias>NONWS+) RPAREN )?

where NONWS is a non-whitespace character and WS a whitespace character.
The regex engine's leftmost-first (greedy) capture semantics for this
particular pattern are reproduced here by `reCaptures`:

* `full` (being greedy and unable to cross whitespace) is exactly the
  maximal non-whitespace prefix of the input; if that prefix is empty
  the match fails;
* if nothing follows the prefix but whitespace, the optional group is
  skipped (`alias` unset); in particular when the whole input is
  non-whitespace, `full` swallows it entirely, parentheses included;
* otherwise the text after the maximal whitespace run following `full`
  must be exactly an open parenthesis, one or more non-whitespace
  characters, and a closing parenthesis ending the input; its interior
  is the `alias` capture.  Shrinking `full` or the whitespace run can
  never turn a failure into a match, because the remainder would then
  retain a whitespace character while the rest of the pattern matches
  none, so this function is the complete match semantics.

Whitespace is modelled as ASCII whitespace (the inputs of interest are
ASCII; Rust's `\s` agrees with `wsChar` on ASCII).  Likewise
`strLower` models Rust's `to_lowercase`, with which it agrees on
ASCII.  The `HashMap` built by `collect` (later pairs overwriting
earlier ones) is modelled by an association list with a last-wins
lookup, `lookupMap`.
-/

namespace NiriGlue

/-- ASCII whitespace, the characters matched by the regex class WS
on ASCII input. -/
def wsChar (c : Char) : Bool :=
  c = ' ' || c = '\t' || c = '\n' || c = '\r' || c = '\x0b' || c = '\x0c'

/-- Mirror of `niri_ipc::KeyboardLayouts`: the ordered layout names and
the index of the current one (a `u8` in the source, modelled as `Nat`). -/
structure KeyboardLayouts where
  names : List String
  current_idx : Nat
deriving DecidableEq

/-- Mirror of `struct LayoutRunner`: the alias table (keys already
lower-cased, last binding wins as in a `HashMap` built by `collect`)
and the layout snapshot.  The compiled regex field is represented by
the fixed function `reCaptures`. -/
structure LayoutRunner where
  aliases : List (String × String)
  layouts : KeyboardLayouts
deriving DecidableEq

/-- Lookup in the association list modelling the `HashMap`: the binding
added last (deepest in the list order used here) wins, matching
`HashMap`'s overwrite-on-collect behaviour. -/
def lookupMap : List (String × String) → String → Option String
  | [], _ => none
  | (k, v) :: rest, key =>
    match lookupMap rest key with
    | some v' => some v'
    | none => if k = key then some v else none

/-- Character-wise lower-casing, the model of Rust's `to_lowercase`
(they agree on ASCII). -/
def strLower (s : String) : String :=
  String.mk (s.data.map Char.toLower)

/-- Key lower-casing applied to the configured alias pairs, as in
`LayoutRunner::new`. -/
def mkAliases (config : List (String × String)) : List (String × String) :=
  config.map (fun kv => (strLower kv.1, kv.2))

/-- Mirror of `LayoutRunner::new`: lower-case the configured keys and
start from an empty snapshot with index 0. -/
def LayoutRunner.new (config : List (String × String)) : LayoutRunner :=
  { aliases := mkAliases config
    layouts := { names := [], current_idx := 0 } }

/-- The optional parenthesised group: matches exactly an opening
parenthesis, a non-empty run of non-whitespace characters, and a
closing parenthesis ending the input; returns the interior. -/
def parenAlias : List Char → Option (List Char)
  | '(' :: rest =>
    if rest.getLast? = some ')' ∧ rest.dropLast ≠ [] ∧
        (∀ c ∈ rest.dropLast, wsChar c = false) then
      some rest.dropLast
    else
      none
  | _ => none

/-- Capture semantics of the anchored regex of `LayoutRunner::new`
applied to a whole string: `none` when the pattern does not match,
otherwise the `full` capture and the optional `alias` capture.  See the
module docstring for why this reproduces the engine's greedy
leftmost-first behaviour. -/
def reCaptures (s : String) : Option (String × Option String) :=
  if s.data.takeWhile (fun c => !wsChar c) = [] then none
  else if s.data.dropWhile (fun c => !wsChar c) = [] then
    some (String.mk (s.data.takeWhile (fun c => !wsChar c)), none)
  else if (s.data.dropWhile (fun c => !wsChar c)).dropWhile wsChar = [] then
    some (String.mk (s.data.takeWhile (fun c => !wsChar c)), none)
  else
    match parenAlias ((s.data.dropWhile (fun c => !wsChar c)).dropWhile wsChar) with
    | some a => some (String.mk (s.data.takeWhile (fun c => !wsChar c)), some (String.mk a))
    | none => none

/-- Mirror of `LayoutRunner::alias_for`: look the name up in the alias
table after lower-casing it; `None` stays `None`. -/
def alias_for (r : LayoutRunner) (name : Option String) : Option String :=
  match name with
  | some n => lookupMap r.aliases (strLower n)
  | none => none

/-- Mirror of `LayoutRunner::alias_layout`, including the normalisation
of empty captures to `None` performed by the source. -/
def alias_layout (r : LayoutRunner) (name : String) : String :=
  match reCaptures name with
  | some caps =>
    let alias0 := caps.2
    let aliasCap := if alias0 = some ("") then none else alias0
    match alias_for r aliasCap with
    | some alias_alias => alias_alias
    | none =>
      let full0 : Option String := some caps.1
      let fullCap := if full0 = some ("") then none else full0
      match alias_for r fullCap with
      | some full_alias => full_alias
      | none =>
        match aliasCap with
        | some a => a
        | none =>
          match fullCap with
          | some f => f
          | none => name
  | none => name

/-- The line printed by `LayoutRunner::switched`: the display name is
spliced in verbatim, with no escaping. -/
def formatLine (layout : String) : String :=
  "\x7b \"text\": \"" ++ layout ++ "\", \"class\": \"layout\" \x7d"

/-- Mirror of `LayoutRunner::switched`: when `idx` is in bounds, emit
one line for the name at `idx` and store `idx`; otherwise do nothing.
The emitted line (if any) is returned alongside the new state. -/
def switched (r : LayoutRunner) (idx : Nat) : LayoutRunner × Option String :=
  match r.layouts.names[idx]? with
  | some layout =>
    ({ r with layouts := { names := r.layouts.names, current_idx := idx } },
     some (formatLine layout))
  | none => (r, none)

/-- Mirror of `LayoutRunner::changed`: replace the stored names by the
incoming ones passed through `alias_layout`, then process a switch to
the incoming current index. -/
def changed (r : LayoutRunner) (layouts : KeyboardLayouts) :
    LayoutRunner × Option String :=
  let r' : LayoutRunner :=
    { r with
      layouts :=
        { names := layouts.names.map (fun name => alias_layout r name)
          current_idx := r.layouts.current_idx } }
  switched r' layouts.current_idx

/-- The events consumed by `LayoutRunner::process_event`; `other`
stands for every other `niri_ipc::Event` variant. -/
inductive Event where
  | keyboardLayoutsChanged (keyboard_layouts : KeyboardLayouts)
  | keyboardLayoutSwitched (idx : Nat)
  | other
deriving DecidableEq

/-- Mirror of `LayoutRunner::process_event`. -/
def process_event (r : LayoutRunner) : Event → LayoutRunner × Option String
  | .keyboardLayoutsChanged kl => changed r kl
  | .keyboardLayoutSwitched idx => switched r idx
  | .other => (r, none)

/-- Runner used to instantiate several witnesses: alias table with the
lower-cased key en, and a snapshot of two display names. -/
def rW : LayoutRunner :=
  { aliases := [("en", "US")]
    layouts := { names := ["US", "RU"], current_idx := 0 } }

/-- Runner sharing rW's alias table but with a different snapshot, used
to witness that the prior sequence plays no role in `changed`. -/
def rV : LayoutRunner :=
  { aliases := [("en", "US")]
    layouts := { names := [], current_idx := 7 } }

/-- Runner for the C5 counterexample: one stored name, index 0. -/
def rX : LayoutRunner :=
  { aliases := [], layouts := { names := ["A"], current_idx := 0 } }

/-- Runner whose single stored name contains a double quote, to witness
the no-escaping behaviour. -/
def rQ : LayoutRunner :=
  { aliases := [], layouts := { names := ["A\"B"], current_idx := 0 } }

theorem stringMk_eq_empty_iff (l : List Char) : String.mk l = "" ↔ l = [] := by
  constructor
  · intro h
    have h2 := congrArg String.data h
    simpa using h2
  · intro h
    subst h
    rfl

theorem parenAlias_spec (T : List Char) (a : List Char) (h : parenAlias T = some a) :
    a ≠ [] ∧ (∀ c ∈ a, wsChar c = false) ∧ T = '(' :: (a ++ [')']) := by
  unfold parenAlias at h
  split at h
  case h_2 => exact absurd h (by simp)
  case h_1 rest =>
    split at h
    case isFalse => exact absurd h (by simp)
    case isTrue hc =>
      obtain ⟨hlast, hne, hws⟩ := hc
      obtain rfl : rest.dropLast = a := by injection h
      refine ⟨hne, hws, ?_⟩
      have hmem : ')' ∈ rest.getLast? := by rw [Option.mem_def]; exact hlast
      have hrest := List.dropLast_append_getLast? ')' hmem
      rw [hrest]

theorem reCaptures_ne_empty (s full : String) (opt : Option String)
    (h : reCaptures s = some (full, opt)) :
    full ≠ "" ∧ ∀ a, opt = some a → a ≠ "" := by
  unfold reCaptures at h
  split at h
  case isTrue => exact absurd h (by simp)
  case isFalse hA =>
    split at h
    case isTrue =>
      simp only [Option.some.injEq, Prod.mk.injEq] at h
      obtain ⟨h1, h2⟩ := h
      subst h1
      subst h2
      refine ⟨by simpa [stringMk_eq_empty_iff] using hA, by simp⟩
    case isFalse =>
      split at h
      case isTrue =>
        simp only [Option.some.injEq, Prod.mk.injEq] at h
        obtain ⟨h1, h2⟩ := h
        subst h1
        subst h2
        refine ⟨by simpa [stringMk_eq_empty_iff] using hA, by simp⟩
      case isFalse =>
        split at h
        case h_2 => exact absurd h (by simp)
        case h_1 a ha =>
          simp only [Option.some.injEq, Prod.mk.injEq] at h
          obtain ⟨h1, h2⟩ := h
          subst h1
          subst h2
          obtain ⟨hane, -, -⟩ := parenAlias_spec _ _ ha
          refine ⟨by simpa [stringMk_eq_empty_iff] using hA, ?_⟩
          intro b hb
          obtain rfl : String.mk a = b := by injection hb
          simpa [stringMk_eq_empty_iff] using hane

theorem alias_layout_alias_case (r : LayoutRunner) (name full a : String)
    (h : reCaptures name = some (full, some a)) :
    alias_layout r name =
      match lookupMap r.aliases (strLower a) with
      | some v => v
      | none =>
        match lookupMap r.aliases (strLower full) with
        | some v => v
        | none => a := by
  obtain ⟨hf, ha⟩ := reCaptures_ne_empty name full (some a) h
  have ha' : a ≠ "" := ha a rfl
  simp only [alias_layout, h, alias_for, Option.some.injEq, if_neg ha', if_neg hf]

theorem alias_layout_full_case (r : LayoutRunner) (name full : String)
    (h : reCaptures name = some (full, none)) :
    alias_layout r name =
      match lookupMap r.aliases (strLower full) with
      | some v => v
      | none => full := by
  obtain ⟨hf, -⟩ := reCaptures_ne_empty name full none h
  simp only [alias_layout, h, alias_for, Option.some.injEq, if_neg hf]
  rfl

theorem alias_layout_no_match (r : LayoutRunner) (name : String)
    (h : reCaptures name = none) : alias_layout r name = name := by
  simp only [alias_layout, h]

theorem alias_layout_congr (r r' : LayoutRunner) (name : String)
    (hal : r'.aliases = r.aliases) : alias_layout r' name = alias_layout r name := by
  simp only [alias_layout, alias_for, hal]

theorem switched_oob (r : LayoutRunner) (idx : Nat)
    (h : r.layouts.names.length ≤ idx) : switched r idx = (r, none) := by
  have hg : r.layouts.names[idx]? = none := List.getElem?_eq_none h
  simp [switched, hg]

theorem switched_ok (r : LayoutRunner) (idx : Nat) (l : String)
    (h : r.layouts.names[idx]? = some l) :
    switched r idx =
      ({ r with layouts := { names := r.layouts.names, current_idx := idx } },
       some (formatLine l)) := by
  simp [switched, h]

theorem switched_aliases (r : LayoutRunner) (idx : Nat) :
    (switched r idx).1.aliases = r.aliases := by
  unfold switched
  cases r.layouts.names[idx]? <;> rfl

theorem switched_names (r : LayoutRunner) (idx : Nat) :
    (switched r idx).1.layouts.names = r.layouts.names := by
  unfold switched
  cases r.layouts.names[idx]? <;> rfl

theorem switched_snd_congr (r1 r2 : LayoutRunner) (idx : Nat)
    (h : r1.layouts.names = r2.layouts.names) :
    (switched r1 idx).2 = (switched r2 idx).2 := by
  unfold switched
  rw [h]
  cases r2.layouts.names[idx]? <;> rfl

theorem switched_in_bounds (r : LayoutRunner) (idx : Nat) (line : String)
    (h : (switched r idx).2 = some line) : idx < r.layouts.names.length := by
  by_contra hc
  rw [switched_oob r idx (Nat.le_of_not_lt hc)] at h
  exact absurd h (by simp)

theorem switched_emits (r : LayoutRunner) (idx : Nat) (line : String)
    (h : (switched r idx).2 = some line) :
    ∃ l, l ∈ (switched r idx).1.layouts.names ∧
      line = "\x7b \"text\": \"" ++ l ++ "\", \"class\": \"layout\" \x7d" := by
  cases hg : r.layouts.names[idx]? with
  | none =>
    rw [switched_oob r idx (List.getElem?_eq_none_iff.mp hg)] at h
    exact absurd h (by simp)
  | some l =>
    rw [switched_ok r idx l hg] at h
    obtain rfl : formatLine l = line := by injection h
    refine ⟨l, ?_, rfl⟩
    rw [switched_names]
    exact List.getElem?_mem hg

theorem lookupMap_some_mem (m : List (String × String)) (key v : String)
    (h : lookupMap m key = some v) : ∃ p, p ∈ m ∧ p.1 = key ∧ p.2 = v := by
  induction m with
  | nil => exact absurd h (by simp [lookupMap])
  | cons kv rest ih =>
    obtain ⟨k, w⟩ := kv
    cases hr : lookupMap rest key with
    | some v' =>
      simp only [lookupMap, hr] at h
      obtain rfl : v' = v := by injection h
      obtain ⟨p, hp, h1, h2⟩ := ih hr
      exact ⟨p, List.mem_cons_of_mem _ hp, h1, h2⟩
    | none =>
      simp only [lookupMap, hr] at h
      split at h
      next hk =>
        obtain rfl : w = v := by injection h
        exact ⟨(k, w), List.mem_cons_self _ _, hk, rfl⟩
      next => exact absurd h (by simp)

theorem lookupMap_mem_isSome (m : List (String × String)) (key v : String)
    (h : (key, v) ∈ m) : lookupMap m key ≠ none := by
  induction m with
  | nil => exact absurd h (by simp)
  | cons kv rest ih =>
    obtain ⟨k, w⟩ := kv
    cases hr : lookupMap rest key with
    | some v' => simp [lookupMap, hr]
    | none =>
      rcases List.mem_cons.mp h with heq | hm
      · have hk : k = key := (congrArg Prod.fst heq).symm
        simp [lookupMap, hr, hk]
      · exact absurd hr (ih hm)

/-- C1: for a raw name whose regex captures are FULL and a (non-empty)
ALIAS, the resolver returns the table value for ALIAS when one exists
(no hypothesis at all is made about FULL's table entry), and when
neither ALIAS nor FULL has a table entry it returns the alias hint
verbatim. -/
theorem c1_alias_precedence (r : LayoutRunner) (name full a v : String)
    (hcap : reCaptures name = some (full, some a)) :
    (lookupMap r.aliases (strLower a) = some v → alias_layout r name = v) ∧
    (lookupMap r.aliases (strLower a) = none →
      lookupMap r.aliases (strLower full) = none → alias_layout r name = a) := by
  constructor
  · intro hv
    rw [alias_layout_alias_case r name full a hcap, hv]
  · intro h1 h2
    rw [alias_layout_alias_case r name full a hcap, h1, h2]

theorem c1_witness :
    alias_layout (LayoutRunner.new [("en", "US"), ("english", "FULL")]) ("English (en)")
      = "US" ∧
    alias_layout (LayoutRunner.new [("en", "US"), ("english", "FULL")]) ("Deutsch (de)")
      = "de" :=
  ⟨(c1_alias_precedence (LayoutRunner.new [("en", "US"), ("english", "FULL")])
      ("English (en)") ("English") ("en") ("US") (by decide)).1 (by decide),
   (c1_alias_precedence (LayoutRunner.new [("en", "US"), ("english", "FULL")])
      ("Deutsch (de)") ("Deutsch") ("de") ("de") (by decide)).2 (by decide) (by decide)⟩

/-- C2: evaluation of the code at the spec's scenario 3.  The regex's
alias group NONWS+ cannot match the empty interior of the parentheses,
so the anchored pattern fails on the whole of Russian () and the
resolver returns the raw name unchanged, even though the alias table
does hold the full-name entry russian (third conjunct).  The spec says
the empty hint is treated as absent and the full-name entry RU is
returned; the source even contains the (dead) normalisation of an empty
alias capture to None, so the code contradicts its own intent here. -/
theorem c2_empty_hint_eval :
    reCaptures ("Russian ()") = none ∧
    alias_layout (LayoutRunner.new [("russian", "RU")]) ("Russian ()") = "Russian ()" ∧
    lookupMap (LayoutRunner.new [("russian", "RU")]).aliases (strLower ("Russian"))
      = some "RU" := by
  refine ⟨by decide, by decide, by decide⟩

/-- C3: a switch event with an out-of-range index emits nothing and
leaves the runner exactly as it was; with an in-range index it emits
exactly the formatted line for the name at that index and stores the
index. -/
theorem c3_switched_semantics (r : LayoutRunner) (idx : Nat) :
    (r.layouts.names.length ≤ idx → switched r idx = (r, none)) ∧
    (∀ l, r.layouts.names[idx]? = some l →
      switched r idx =
        ({ r with layouts := { names := r.layouts.names, current_idx := idx } },
         some (formatLine l))) :=
  ⟨switched_oob r idx, fun l hl => switched_ok r idx l hl⟩

theorem c3_witness :
    switched rW 5 = (rW, none) ∧
    switched rW 1 =
      ({ rW with layouts := { names := rW.layouts.names, current_idx := 1 } },
       some (formatLine ("RU"))) :=
  ⟨(c3_switched_semantics rW 5).1 (by decide),
   (c3_switched_semantics rW 1).2 ("RU") (by decide)⟩

/-- C6 (amended): for a raw name with no parenthetical part and no
table entry for its full token, the resolver returns the full token:
that is the input unchanged whenever the input has no trailing
whitespace, but an input with trailing whitespace comes back with that
whitespace stripped; a name that fails the pattern altogether is
returned unchanged. -/
theorem c6_no_paren (r : LayoutRunner) (name : String) :
    (∀ full, reCaptures name = some (full, none) →
      lookupMap r.aliases (strLower full) = none → alias_layout r name = full) ∧
    (reCaptures name = none → alias_layout r name = name) := by
  constructor
  · intro full hcap hnone
    rw [alias_layout_full_case r name full hcap, hnone]
  · intro h
    exact alias_layout_no_match r name h

theorem c6_counterexample :
    alias_layout (LayoutRunner.new []) ("ab ") = "ab" ∧ ("ab" : String) ≠ "ab " :=
  ⟨by decide, by decide⟩

theorem c6_witness :
    alias_layout (LayoutRunner.new [("zz", "x")]) ("mk") = "mk" ∧
    alias_layout (LayoutRunner.new [("zz", "x")]) ("North Macedonian") = "North Macedonian" :=
  ⟨(c6_no_paren (LayoutRunner.new [("zz", "x")]) ("mk")).1 ("mk") (by decide) (by decide),
   (c6_no_paren (LayoutRunner.new [("zz", "x")]) ("North Macedonian")).2 (by decide)⟩

/-- C9: a switch to a valid index only changes the stored current
index: the alias table and the stored name sequence are untouched. -/
theorem c9_switched_frame (r : LayoutRunner) (idx : Nat) (l : String)
    (h : r.layouts.names[idx]? = some l) :
    (switched r idx).1.aliases = r.aliases ∧
    (switched r idx).1.layouts.names = r.layouts.names ∧
    (switched r idx).1.layouts.current_idx = idx := by
  refine ⟨switched_aliases r idx, switched_names r idx, ?_⟩
  rw [switched_ok r idx l h]

theorem c9_witness :
    (switched rW 1).1.aliases = rW.aliases ∧
    (switched rW 1).1.layouts.names = rW.layouts.names ∧
    (switched rW 1).1.layouts.current_idx = 1 :=
  c9_switched_frame rW 1 ("RU") (by decide)

/-- C4: a layouts-changed event replaces the stored sequence by the
incoming names passed through the resolver and then behaves exactly as
a switch to the embedded index against the new sequence; the prior
sequence contributes nothing (two runners with the same alias table
produce the same new sequence and the same emission), and the line for
the embedded index is emitted when that index is valid. -/
theorem c4_changed_replaces (r r2 : LayoutRunner) (kl : KeyboardLayouts)
    (hal : r2.aliases = r.aliases) :
    changed r kl =
      switched
        { r with layouts := { names := kl.names.map (fun n => alias_layout r n),
                              current_idx := r.layouts.current_idx } }
        kl.current_idx ∧
    (changed r kl).1.layouts.names = kl.names.map (fun n => alias_layout r n) ∧
    (changed r2 kl).1.layouts.names = (changed r kl).1.layouts.names ∧
    (changed r2 kl).2 = (changed r kl).2 ∧
    (∀ l, (kl.names.map (fun n => alias_layout r n))[kl.current_idx]? = some l →
      (changed r kl).2 = some (formatLine l) ∧
      (changed r kl).1.layouts.current_idx = kl.current_idx) := by
  have hmap : kl.names.map (fun n => alias_layout r2 n)
      = kl.names.map (fun n => alias_layout r n) :=
    List.map_congr_left (fun a _ => alias_layout_congr r r2 a hal)
  have hch : changed r kl =
      switched
        { r with layouts := { names := kl.names.map (fun n => alias_layout r n),
                              current_idx := r.layouts.current_idx } }
        kl.current_idx := rfl
  have hch2 : changed r2 kl =
      switched
        { r2 with layouts := { names := kl.names.map (fun n => alias_layout r2 n),
                               current_idx := r2.layouts.current_idx } }
        kl.current_idx := rfl
  refine ⟨hch, ?_, ?_, ?_, ?_⟩
  · rw [hch, switched_names]
  · rw [hch, hch2, switched_names, switched_names]
    exact hmap
  · rw [hch, hch2]
    exact switched_snd_congr _ _ _ (by simpa using hmap)
  · intro l hl
    have hl' : ({ r with
        layouts := { names := kl.names.map (fun n => alias_layout r n),
                     current_idx := r.layouts.current_idx } } :
        LayoutRunner).layouts.names[kl.current_idx]? = some l := hl
    rw [hch, switched_ok _ _ l hl']
    exact ⟨rfl, rfl⟩

theorem c4_witness :
    (changed rW { names := ["English (en)", "Russian"], current_idx := 0 }).2
        = some (formatLine ("US")) ∧
    (changed rW { names := ["English (en)", "Russian"], current_idx := 0
        }).1.layouts.current_idx = 0 :=
  (c4_changed_replaces rW rV ⟨["English (en)", "Russian"], 0⟩ rfl).2.2.2.2
    ("US") (by decide)

/-- C5 (amended): an out-of-range switch index leaves the whole runner
unchanged with no emission; a layouts-changed event whose embedded
index is out of range of the new sequence still replaces the stored
sequence but leaves the stored current index unchanged and emits
nothing; and a line is only ever emitted for an index within bounds of
the stored sequence. -/
theorem c5_index_bounds (r : LayoutRunner) (idx : Nat) (kl : KeyboardLayouts) :
    (r.layouts.names.length ≤ idx → switched r idx = (r, none)) ∧
    ((kl.names.map (fun n => alias_layout r n)).length ≤ kl.current_idx →
      (changed r kl).1.layouts.current_idx = r.layouts.current_idx ∧
      (changed r kl).2 = none) ∧
    (∀ line, (switched r idx).2 = some line → idx < r.layouts.names.length) := by
  refine ⟨switched_oob r idx, ?_, fun line h => switched_in_bounds r idx line h⟩
  intro hlen
  have hch : changed r kl =
      switched
        { r with layouts := { names := kl.names.map (fun n => alias_layout r n),
                              current_idx := r.layouts.current_idx } }
        kl.current_idx := rfl
  have hoob := switched_oob
    { r with layouts := { names := kl.names.map (fun n => alias_layout r n),
                          current_idx := r.layouts.current_idx } }
    kl.current_idx (by simpa using hlen)
  rw [hch, hoob]
  exact ⟨rfl, rfl⟩

theorem c5_counterexample :
    (changed rX { names := ["B", "C"], current_idx := 5 }).1.layouts ≠ rX.layouts ∧
    (changed rX { names := ["B", "C"], current_idx := 5 }).2 = none :=
  ⟨by decide, by decide⟩

theorem c5_witness :
    switched rW 7 = (rW, none) ∧
    ((changed rW { names := ["X (y)"], current_idx := 3 }).1.layouts.current_idx
        = rW.layouts.current_idx ∧
      (changed rW { names := ["X (y)"], current_idx := 3 }).2 = none) ∧
    1 < rW.layouts.names.length :=
  ⟨(c5_index_bounds rW 7 ⟨["X (y)"], 3⟩).1 (by decide),
   (c5_index_bounds rW 7 ⟨["X (y)"], 3⟩).2.1 (by decide),
   (c5_index_bounds rW 1 ⟨["X (y)"], 3⟩).2.2 (formatLine ("RU")) (by decide)⟩

/-- C7: every line the processor emits, for any event, is exactly the
fixed-shape status object with a stored display name spliced in
verbatim (no escaping: an embedded double quote in the name appears
as-is in the line), and the `Option` result makes it one line per
successful switch. -/
theorem c7_output_shape (r : LayoutRunner) (ev : Event) (line : String)
    (h : (process_event r ev).2 = some line) :
    ∃ l, l ∈ (process_event r ev).1.layouts.names ∧
      line = "\x7b \"text\": \"" ++ l ++ "\", \"class\": \"layout\" \x7d" := by
  cases ev with
  | keyboardLayoutsChanged kl => exact switched_emits _ _ _ h
  | keyboardLayoutSwitched idx => exact switched_emits _ _ _ h
  | other => exact absurd h (by simp [process_event])

theorem c7_witness :
    ∃ l, l ∈ (process_event rQ (Event.keyboardLayoutSwitched 0)).1.layouts.names ∧
      formatLine ("A\"B") = "\x7b \"text\": \"" ++ l ++ "\", \"class\": \"layout\" \x7d" :=
  c7_output_shape rQ (Event.keyboardLayoutSwitched 0) (formatLine ("A\"B")) (by decide)

/-- C8 (amended): the alias lookup lower-cases both the stored keys and
the queried token, so a configured key is hit by any token with the
same lower-casing and the configured value is returned verbatim —
provided every configured key with that lower-casing carries the same
value (when keys collide after lower-casing, the map keeps only the
last binding, which is what the lookup returns). -/
theorem c8_lookup_case_insensitive (r : LayoutRunner)
    (config : List (String × String)) (K V T : String)
    (hr : r.aliases = mkAliases config)
    (h1 : (K, V) ∈ config)
    (h2 : ∀ p ∈ config, strLower p.1 = strLower K → p.2 = V)
    (h3 : strLower T = strLower K) :
    alias_for r (some T) = some V := by
  have hgoal : lookupMap (mkAliases config) (strLower K) = some V := by
    have hmem : (strLower K, V) ∈ mkAliases config :=
      List.mem_map.mpr ⟨(K, V), h1, rfl⟩
    cases hl : lookupMap (mkAliases config) (strLower K) with
    | none => exact absurd hl (lookupMap_mem_isSome _ _ V hmem)
    | some v' =>
      obtain ⟨p, hp, hk, hv⟩ := lookupMap_some_mem _ _ _ hl
      obtain ⟨q, hq, rfl⟩ := List.mem_map.mp hp
      have hk2 : strLower q.1 = strLower K := hk
      have hv2 : q.2 = v' := hv
      rw [← hv2, h2 q hq hk2]
  show lookupMap r.aliases (strLower T) = some V
  rw [hr, h3, hgoal]

theorem c8_counterexample :
    alias_for (LayoutRunner.new [("EN", "US"), ("en", "GB")]) (some ("En"))
      = some "GB" ∧ ("GB" : String) ≠ "US" :=
  ⟨by decide, by decide⟩

theorem c8_witness :
    alias_for (LayoutRunner.new [("EN", "US")]) (some ("en")) = some "US" :=
  c8_lookup_case_insensitive (LayoutRunner.new [("EN", "US")]) [("EN", "US")]
    ("EN") ("US") ("en") rfl (by decide) (by decide) (by decide)

/-- C10: a name on which the anchored pattern fails is returned
unchanged by the resolver whatever the alias table contains; and the
pattern only ever matches a name consisting of one non-whitespace
token, then optional whitespace, then an optional parenthesised
non-whitespace token ending the name — so a name with whitespace
anywhere else fails the pattern, is returned verbatim, and its table
entries are never consulted. -/
theorem c10_whitespace_shapes (r : LayoutRunner) (name : String) :
    (reCaptures name = none → alias_layout r name = name) ∧
    (∀ full opt, reCaptures name = some (full, opt) →
      full.data ≠ [] ∧ (∀ c ∈ full.data, wsChar c = false) ∧
      ∃ W, (∀ c ∈ W, wsChar c = true) ∧
        ((opt = none ∧ name.data = full.data ++ W) ∨
         (∃ a, opt = some a ∧ a.data ≠ [] ∧ (∀ c ∈ a.data, wsChar c = false) ∧
           name.data = full.data ++ W ++ ('(' :: (a.data ++ [')']))))) := by
  refine ⟨alias_layout_no_match r name, ?_⟩
  intro full opt h
  unfold reCaptures at h
  split at h
  case isTrue => exact absurd h (by simp)
  case isFalse hA =>
    split at h
    case isTrue hrest =>
      simp only [Option.some.injEq, Prod.mk.injEq] at h
      obtain ⟨h1, h2⟩ := h
      subst h1
      subst h2
      refine ⟨hA, ?_, [], by simp, Or.inl ⟨rfl, ?_⟩⟩
      · intro c hc
        simpa using List.mem_takeWhile_imp hc
      · have e1 := List.takeWhile_append_dropWhile (fun c => !wsChar c) name.data
        rw [hrest, List.append_nil] at e1
        rw [List.append_nil]
        exact e1.symm
    case isFalse hrest =>
      split at h
      case isTrue hT =>
        simp only [Option.some.injEq, Prod.mk.injEq] at h
        obtain ⟨h1, h2⟩ := h
        subst h1
        subst h2
        refine ⟨hA, ?_, name.data.dropWhile (fun c => !wsChar c), ?_,
          Or.inl ⟨rfl, (List.takeWhile_append_dropWhile _ _).symm⟩⟩
        · intro c hc
          simpa using List.mem_takeWhile_imp hc
        · intro c hc
          simpa using List.dropWhile_eq_nil_iff.mp hT c hc
      case isFalse hT =>
        split at h
        case h_2 => exact absurd h (by simp)
        case h_1 a ha =>
          simp only [Option.some.injEq, Prod.mk.injEq] at h
          obtain ⟨h1, h2⟩ := h
          subst h1
          subst h2
          obtain ⟨hane, haws, hTeq⟩ := parenAlias_spec _ _ ha
          refine ⟨hA, ?_,
            (name.data.dropWhile (fun c => !wsChar c)).takeWhile wsChar, ?_,
            Or.inr ⟨String.mk a, rfl, hane, haws, ?_⟩⟩
          · intro c hc
            simpa using List.mem_takeWhile_imp hc
          · intro c hc
            simpa using List.mem_takeWhile_imp hc
          · have e1 : name.data =
                name.data.takeWhile (fun c => !wsChar c) ++
                  name.data.dropWhile (fun c => !wsChar c) :=
              (List.takeWhile_append_dropWhile _ _).symm
            have e2 : name.data.dropWhile (fun c => !wsChar c) =
                (name.data.dropWhile (fun c => !wsChar c)).takeWhile wsChar ++
                  (name.data.dropWhile (fun c => !wsChar c)).dropWhile wsChar :=
              (List.takeWhile_append_dropWhile _ _).symm
            have e3 := e1.trans (congrArg
              (fun t => name.data.takeWhile (fun c => !wsChar c) ++ t) e2)
            have e4 := e3.trans (congrArg
              (fun t => name.data.takeWhile (fun c => !wsChar c) ++
                ((name.data.dropWhile (fun c => !wsChar c)).takeWhile wsChar ++ t))
              hTeq)
            exact e4.trans (List.append_assoc _ _ _).symm

theorem c10_witness :
    alias_layout (LayoutRunner.new [("hello world", "X")]) ("Hello World")
      = "Hello World" :=
  (c10_whitespace_shapes (LayoutRunner.new [("hello world", "X")])
    ("Hello World")).1 (by decide)

end NiriGlue
